import Mathlib

/-!
Verification of the spellcast repository (src/spellcast.py) against its
natural-language specification.

The Python source is shallowly embedded: pure fragments become Lean
functions over `List Char` / `String`, Python `int` becomes `Int`,
Python exceptions (IndexError, ValueError) become `Option`, and the
stateful generator loops become explicit state-passing recursions.
Python-specific primitive operations (negative list indexing, slice
clamping, `str.split`, `int(...)`, `str * n`) are modelled by dedicated
`py...` helpers whose semantics follow the Python language reference.
-/

/-- Mistake record produced by every backend, with the fields listed in
the source's "General comments on backends" block: the wrong word, the
0-based line, the position of the word in the line, and suggestions.
`line` and `offset` are `Int` because the Python code computes them with
unrestricted integer arithmetic (they can go negative, see C1/C2). -/
structure Mistake where
  word : String
  line : Int
  offset : Int
  suggestions : List String
deriving Repr, DecidableEq

/-- Python list indexing `xs[i]`: a negative index counts from the end;
an index out of range raises IndexError (modelled as `none`). -/
def pyListGet {α : Type} (xs : List α) (i : Int) : Option α :=
  let j : Int := if i < 0 then i + xs.length else i
  if 0 ≤ j then xs.get? j.toNat else none

/-- Clamp one slice endpoint the way Python slicing does for a list of
length `n`: negative endpoints count from the end and are clamped to 0,
non-negative endpoints are clamped to `n`. -/
def pyClampIdx (n : Nat) (i : Int) : Nat :=
  if i < 0 then (i + n).toNat else min i.toNat n

/-- Python string slice `s[a:b]` with full clamping semantics. -/
def pySlice (s : String) (a b : Int) : String :=
  let n := s.data.length
  String.mk ((s.data.take (pyClampIdx n b)).drop (pyClampIdx n a))

/-- Python `c * n` for a one-character string: `n` copies of the
character, the empty string when `n ≤ 0`. -/
def pyRepeatChar (c : Char) (n : Int) : String :=
  String.mk (List.replicate n.toNat c)

/-- The loop of spellcast.py lines 95-99 building `acc_line_lengths`:
running total of `len(l) + len('\n')`, appending the total *before*
adding each line's contribution.  The final `append` of line 100 is the
base case. -/
def accGo : List String → Int → List Int
  | [], total => [total]
  | l :: ls, total => total :: accGo ls (total + l.length + 1)

/-- `acc_line_lengths` of `languagetool_report_file` (spellcast.py
lines 94-100): for each line, the number of characters before it, with
one trailing entry holding the total length. -/
def acc_line_lengths (lines : List String) : List Int :=
  accGo lines 0

/-- Python `bisect.bisect_left(a, x)` on a sorted list `a`: the leftmost
insertion point for `x`, i.e. the first index whose element is `≥ x`
(`a.length` when every element is `< x`).  `acc_line_lengths` is sorted
(strictly increasing, proven in the C9 theorem), so this extensional
description coincides with the library's binary search. -/
def bisect_left (a : List Int) (x : Int) : Nat :=
  List.findIdx (fun v => x ≤ v) a

/-- The per-match body of `languagetool_report_file` (spellcast.py lines
127-140): `line = bisect_left(acc, offset)`, then the yielded mistake is
`line - 1`, `offset - acc_line_lengths[line - 1]` (Python indexing: for
`line = 0` the index `-1` reads the *last* table entry), and the word is
recovered by slicing `'\n'.join(lines)`.  The table is never empty and
`line - 1` is always in Python's index range, so the `getD 0` default is
never used. -/
def languagetool_resolve_match (lines : List String) (offset length : Int) : Mistake :=
  let acc := acc_line_lengths lines
  let buf := String.intercalate "\n" lines
  let line : Nat := bisect_left acc offset
  { word := pySlice buf offset (offset + length)
    line := (line : Int) - 1
    offset := offset - (pyListGet acc ((line : Int) - 1)).getD 0
    suggestions := [] }

/-- `leadsWith p s` is true when `p` is an initial segment of `s`. -/
def leadsWith : List Char → List Char → Bool
  | [], _ => true
  | _ :: _, [] => false
  | p :: ps, c :: cs => p == c && leadsWith ps cs

/-- Worker for Python `str.split(sep)` over character lists.  The `Nat`
argument counts characters still to be discarded from a separator match,
so the recursion stays structural.  Scanning is left to right with
non-overlapping matches, exactly like Python. -/
def pySplitGo (sep : List Char) : List Char → Nat → List (List Char)
  | [], _ => [[]]
  | _ :: rest, skip + 1 => pySplitGo sep rest skip
  | c :: rest, 0 =>
    if leadsWith sep (c :: rest) && !sep.isEmpty then
      [] :: pySplitGo sep rest (sep.length - 1)
    else
      match pySplitGo sep rest 0 with
      | t :: ts => (c :: t) :: ts
      | [] => [[c]]

/-- Python `s.split(sep)` for a non-empty separator string (Python
raises on an empty separator; the claims only use ":", ": ", ", "
and " "). -/
def pySplit (s sep : String) : List String :=
  (pySplitGo sep.data s.data 0).map String.mk

/-- Accumulate the value of a digit run; `none` on any non-digit. -/
def digitsValGo : List Char → Nat → Option Nat
  | [], acc => some acc
  | c :: cs, acc =>
    if c.isDigit then digitsValGo cs (acc * 10 + (c.toNat - '0'.toNat)) else none

/-- Python `int(s)` for the forms the aspell protocol produces: an
optional sign followed by a non-empty digit run; everything else raises
ValueError (modelled as `none`).  (Python additionally strips
whitespace and allows digit-group underscores; the reply fields never
contain those.) -/
def pyInt? (s : String) : Option Int :=
  match s.data with
  | [] => none
  | '-' :: cs =>
    if cs.isEmpty then none else (digitsValGo cs 0).map (fun n => -(n : Int))
  | '+' :: cs =>
    if cs.isEmpty then none else (digitsValGo cs 0).map (fun n => (n : Int))
  | cs => (digitsValGo cs 0).map (fun n => (n : Int))

/-- `parse_aspell_line_with_suggestions` (spellcast.py lines 28-38):
`metadata = line.split(':')[0].split(' ')`, the word is `metadata[1]`,
the offset is `int(metadata[3]) - 1`, and the suggestions are
`line.split(': ')[1].split(', ')`.  The result triple is
(word, offset, suggestions); IndexError/ValueError become `none`. -/
def parse_aspell_line_with_suggestions (line : String) :
    Option (String × Int × List String) := do
  let meta0 ← (pySplit line ":").get? 0
  let metadata := pySplit meta0 " "
  let word ← metadata.get? 1
  let offStr ← metadata.get? 3
  let off ← pyInt? offStr
  let suggPart ← (pySplit line ": ").get? 1
  pure (word, off - 1, pySplit suggPart ", ")

/-- `parse_aspell_line_no_suggestion` (spellcast.py lines 40-50):
`metadata = line.split(' ')`, the word is `metadata[1]`, the offset is
`int(metadata[2]) - 1`, no suggestions. -/
def parse_aspell_line_no_suggestion (line : String) :
    Option (String × Int × List String) := do
  let metadata := pySplit line " "
  let word ← metadata.get? 1
  let offStr ← metadata.get? 2
  let off ← pyInt? offStr
  pure (word, off - 1, [])

/-- The reply loop of `aspell_report_file` (spellcast.py lines 67-85)
with the subprocess output given as the list of reply lines.  The
internal `line_number` counter becomes an explicit argument; the result
is the yielded mistakes together with the final counter, or `none` when
a parse raises.  An empty reply advances the counter; `*`/`@`/`+`
replies are skipped; a `#` reply yields a suggestion-free mistake and a
`&` reply yields one with suggestions (the two `if`s are not exclusive
in the source, but a line has a single first character). -/
def aspellGo : List String → Nat → Option (List Mistake × Nat)
  | [], n => some ([], n)
  | r :: rest, n =>
    match r.data with
    | [] => aspellGo rest (n + 1)
    | c :: _ =>
      if c = '*' ∨ c = '@' then aspellGo rest n
      else if c = '+' then aspellGo rest n
      else
        match (if c = '#' then
            (parse_aspell_line_no_suggestion r).map
              (fun t => [Mistake.mk t.1 n t.2.1 t.2.2]) else some []) with
        | none => none
        | some hs =>
          match (if c = '&' then
              (parse_aspell_line_with_suggestions r).map
                (fun t => [Mistake.mk t.1 n t.2.1 t.2.2]) else some []) with
          | none => none
          | some am =>
            match aspellGo rest n with
            | none => none
            | some (ms, n2) => some (hs ++ am ++ ms, n2)

/-- Total document text with one newline per line, the reference output
of echoing the document lines with `print`. -/
def docText (lines : List String) : String :=
  match lines with
  | [] => ""
  | l :: rest => l ++ "\n" ++ docText rest

/-- Partial sums of the per-line contributions `len + 1`. -/
def lineSums (lines : List String) (i : Nat) : Int :=
  (((lines.take i).map (fun l => (l.length : Int) + 1)).sum)

/-- Index of the first `'m'` in a character list, if any. -/
def idxOfM : List Char → Option Nat
  | [] => none
  | c :: cs => if c = 'm' then some 0 else (idxOfM cs).map (fun i => i + 1)

/-- Given the characters after an escape character, the length of the
regex match `\[[^m]*m` starting there, if any: a `'['`, the characters
before the first `'m'`, and that `'m'` itself. -/
def escMatchLen : List Char → Option Nat
  | '[' :: rest => (idxOfM rest).map (fun i => 1 + i + 1)
  | _ => none

/-- One left-to-right pass of `re.sub('\x1b\[[^m]*m', '', s)` — the body
of `strip_color_escapes` (spellcast.py lines 143-145).  At an escape
character followed by `'['`, the regex matches up to (and including) the
first following `'m'`, if one exists, and the whole match is dropped;
scanning resumes after the match (matches are non-overlapping,
leftmost).  When no `'m'` follows, the position does not match and the
character is kept.  The `Nat` argument counts characters of a recognised
match still to be discarded, keeping the recursion structural. -/
def stripEscGo : List Char → Nat → List Char
  | [], _ => []
  | _ :: cs, skip + 1 => stripEscGo cs skip
  | c :: cs, 0 =>
    if c = '\x1b' then
      match escMatchLen cs with
      | some k => stripEscGo cs k
      | none => c :: stripEscGo cs 0
    else c :: stripEscGo cs 0

/-- `strip_color_escapes` (spellcast.py lines 143-145) on the character
list of a string. -/
def stripEscChars (s : List Char) : List Char :=
  stripEscGo s 0

/-- `strip_color_escapes` (spellcast.py lines 143-145):
`re.sub('\x1b\[[^m]*m', '', string)`. -/
def strip_color_escapes (s : String) : String :=
  String.mk (stripEscChars s.data)

/-- The highlight-off marker `'\x1b[0m'` as characters. -/
def reset0 : List Char := ['\x1b', '[', '0', 'm']

/-- The highlight-on marker `'\x1b[1;31m'` as characters. -/
def red1 : List Char := ['\x1b', '[', '1', ';', '3', '1', 'm']

/-- The `offset2mistake` dictionary of `output_augmented_input`
(spellcast.py lines 202-204): each mistake is written at key
`m['offset']` in iteration order, so a later mistake with the same
offset replaces an earlier one.  Modelled as the lookup function the
dictionary denotes. -/
def offset2mistake (ms : List Mistake) : Int → Option Mistake :=
  ms.foldl (fun acc m => fun o => if o = m.offset then some m else acc o)
    (fun _ => none)

/-- The character loop of `output_augmented_input` (spellcast.py lines
205-215) over `enumerate(l + '\n')`: `out` is the accumulated `output`,
`endoff` the current `endoffset` (initially -1).  At each offset, first
emit the highlight-off marker when `offset == endoffset`, then, when a
mistake starts here, remember its end and emit the highlight-on marker,
then emit the character itself. -/
def augGo (o2m : Int → Option Mistake) :
    List Char → Nat → Int → List Char → List Char
  | [], _, _, out => out
  | ch :: rest, off, endoff, out =>
    let out1 := if (off : Int) = endoff then out ++ reset0 else out
    let endoff1 : Int := if (off : Int) = endoff then -1 else endoff
    match o2m (off : Int) with
    | some m =>
      augGo o2m rest (off + 1) ((off : Int) + m.word.length) (out1 ++ red1 ++ [ch])
    | none => augGo o2m rest (off + 1) endoff1 (out1 ++ [ch])

/-- The mistakes of line `n`: exactly the value of `line2mistakes.get(n, [])`
built by spellcast.py lines 188-193 (appended in iteration order). -/
def lineMistakes (mistakes : List Mistake) (n : Nat) : List Mistake :=
  mistakes.filter (fun m => m.line == (n : Int))

/-- Rendering of one line carrying mistakes in Augmented mode
(spellcast.py lines 201-216): run the character loop over `l + '\n'`
with `endoffset = -1`, then `print(output, end='')`. -/
def renderAugLine (l : String) (ms : List Mistake) : String :=
  String.mk (augGo (offset2mistake ms) (l.data ++ ['\n']) 0 (-1) [])

/-- The `for n, l in enumerate(lines)` loop of `output_augmented_input`
(spellcast.py lines 194-216) with the enumeration counter explicit: a
line with no mistakes is printed unchanged (`print(l)` appends a
newline), a line with mistakes is rendered with highlights. -/
def augLinesGo (mistakes : List Mistake) : List String → Nat → String
  | [], _ => ""
  | l :: rest, n =>
    (if (lineMistakes mistakes n).isEmpty then l ++ "\n"
     else renderAugLine l (lineMistakes mistakes n)) ++ augLinesGo mistakes rest (n + 1)

/-- `output_augmented_input` (spellcast.py lines 187-216): the full
Augmented-mode output for a document and a mistake sequence. -/
def output_augmented_input (lines : List String) (mistakes : List Mistake) : String :=
  augLinesGo mistakes lines 0

/-- The colorized `filename:line:` label of `pretty_print_mistake`
(spellcast.py lines 152-153):
`'\x1b[32m{}\x1b[36m:\x1b[33m{}\x1b[36m:\x1b[0m'.format(filename, line)`. -/
def mkPfx (filename : String) (line : Int) : String :=
  "\x1b[32m" ++ filename ++ "\x1b[36m:\x1b[33m" ++ toString line ++
    "\x1b[36m:\x1b[0m"

/-- The first printed line of `pretty_print_mistake` (spellcast.py lines
156-159): label, the line text up to the offset, the flagged span
wrapped in highlight markers, and the rest of the line. -/
def pretty_first_line (l : String) (m : Mistake) (filename : String) : String :=
  mkPfx filename m.line ++ pySlice l 0 m.offset ++ "\x1b[1;31m" ++
    pySlice l m.offset (m.offset + m.word.length) ++ "\x1b[0m" ++
    pySlice l (m.offset + m.word.length) (l.length : Int)

/-- The second printed line of `pretty_print_mistake` (spellcast.py
lines 154 and 160): `indent = len(strip_color_escapes(prefix)) +
mistake['offset']` spaces, then the highlighted run of `~` as long as
the flagged word. -/
def pretty_second_line (m : Mistake) (filename : String) : String :=
  pyRepeatChar ' '
      (((strip_color_escapes (mkPfx filename m.line)).length : Int) + m.offset) ++
    "\x1b[1;31m" ++ pyRepeatChar '~' (m.word.length : Int) ++ "\x1b[0m"

/-- The `'  Suggestions: '` label (spellcast.py line 165). -/
def suggLabel : String := "  Suggestions: "

/-- The suggestion loop of `pretty_print_mistake` (spellcast.py lines
166-178) accumulating the printed text: `cur` is `sugg_cur_width`,
`first` is `is_first`, and `sugg_width = 80`.  On wrap, a comma, a
newline and an indent as wide as the label are emitted before the
suggestion; otherwise `', '` joins it to the current line. -/
def suggGo : List String → Nat → Bool → String → String
  | [], _, _, out => out
  | s :: rest, cur, first, out =>
    if cur + 2 + s.length > 80 ∧ first = false then
      suggGo rest (suggLabel.length + s.length) false
        (out ++ ",\n" ++ pyRepeatChar ' ' (suggLabel.length : Int) ++ s)
    else if first = false then
      suggGo rest (cur + 2 + s.length) false (out ++ ", " ++ s)
    else
      suggGo rest (cur + s.length) false (out ++ s)

/-- The suggestion text printed by `pretty_print_mistake` before the
final `print('\n')`: the label followed by the wrapped suggestions. -/
def sugg_body (suggestions : List String) : String :=
  suggGo suggestions suggLabel.length true suggLabel

/-- The whole suggestion section: nothing when the suggestion list is
empty (spellcast.py lines 162-163 return early), otherwise the wrapped
text and the two newlines of the final `print('\n')` (line 179). -/
def sugg_section (m : Mistake) : String :=
  if m.suggestions.isEmpty then "" else sugg_body m.suggestions ++ "\n\n"

/-- `pretty_print_mistake` (spellcast.py lines 148-179): the full
printed text for one mistake, or `none` when `lines[mistake['line']]`
raises IndexError.  Each of the two `print(...)` calls contributes a
trailing newline. -/
def pretty_print_mistake (lines : List String) (m : Mistake)
    (filename : String) : Option String := do
  let l ← pyListGet lines m.line
  pure (pretty_first_line l m filename ++ "\n" ++
    pretty_second_line m filename ++ "\n" ++ sugg_section m)

/-- The suggestion text emitted after the first suggestion has been
placed: the tail of the loop of spellcast.py lines 169-178 with
`is_first` already false and current width `cur`. -/
def suggTail : List String → Nat → String
  | [], _ => ""
  | s :: rest, cur =>
    if cur + 2 + s.length > 80 then
      ",\n" ++ pyRepeatChar ' ' (suggLabel.length : Int) ++ s ++
        suggTail rest (suggLabel.length + s.length)
    else ", " ++ s ++ suggTail rest (cur + 2 + s.length)

/-- Length of the longest suggestion (0 for an empty list). -/
def maxSuggLen (suggs : List String) : Nat :=
  (suggs.map String.length).foldr max 0

/-- The rendered lines of a character stream: split on `'\n'`. -/
def linesOfChars (cs : List Char) : List (List Char) :=
  pySplitGo ['\n'] cs 0

section BoundaryTable

/-- Closed form of `accGo`: entry `i` is the start total plus the sum of
`len + 1` over the first `i` lines. -/
theorem accGo_eq (ls : List String) : ∀ t : Int, accGo ls t =
    (List.range (ls.length + 1)).map
      (fun i => t + (((ls.take i).map (fun l => (l.length : Int) + 1)).sum)) := by
  induction ls with
  | nil =>
    intro t
    simp [accGo]
  | cons l ls ih =>
    intro t
    have hcons : accGo (l :: ls) t = t :: accGo ls (t + l.length + 1) := rfl
    rw [hcons, ih (t + l.length + 1)]
    have hlen : (l :: ls).length + 1 = (ls.length + 1) + 1 := rfl
    rw [hlen, List.range_succ_eq_map (ls.length + 1), List.map_cons, List.map_map]
    congr 1
    · simp
    · refine List.map_congr_left (fun i _ => ?_)
      simp only [Function.comp_apply, Nat.succ_eq_add_one, List.take_succ_cons,
        List.map_cons, List.sum_cons]
      ring

theorem lineSums_step (lines : List String) (k : Nat) (hk : k < lines.length) :
    lineSums lines k < lineSums lines (k + 1) := by
  unfold lineSums
  rw [List.take_succ, List.getElem?_eq_getElem hk]
  simp only [Option.toList_some, List.map_append, List.sum_append, List.map_cons,
    List.map_nil, List.sum_cons, List.sum_nil]
  have : (0 : Int) ≤ (lines[k].length : Int) := Int.ofNat_nonneg _
  omega

theorem lineSums_mono (lines : List String) :
    ∀ j i : Nat, i < j → j ≤ lines.length → lineSums lines i < lineSums lines j := by
  intro j
  induction j with
  | zero => intro i hi _; omega
  | succ j ih =>
    intro i hi hj
    rcases Nat.lt_succ_iff_lt_or_eq.mp hi with h | rfl
    · exact lt_trans (ih i h (by omega)) (lineSums_step lines j (by omega))
    · exact lineSums_step lines i (by omega)

/-- Claim C9: for every sequence of lines, the boundary table built by
the FlatOffset backend is strictly increasing, its entry `i` is the sum
of `length + 1` over lines `0..i-1`, its first entry is 0 and its last
entry is the total document length counting one newline per line. -/
theorem C9_boundary_table_correct (lines : List String) :
    List.Pairwise (fun a b => a < b) (acc_line_lengths lines) ∧
    acc_line_lengths lines =
      (List.range (lines.length + 1)).map (fun i => lineSums lines i) ∧
    (acc_line_lengths lines)[0]? = some 0 ∧
    (acc_line_lengths lines)[lines.length]? =
      some ((lines.map (fun l => (l.length : Int) + 1)).sum) := by
  have hform : acc_line_lengths lines =
      (List.range (lines.length + 1)).map (fun i => lineSums lines i) := by
    unfold acc_line_lengths
    rw [accGo_eq lines 0]
    refine List.map_congr_left (fun i _ => ?_)
    unfold lineSums
    ring
  refine ⟨?_, hform, ?_, ?_⟩
  · rw [hform]
    rw [List.pairwise_map]
    have hrange : List.Pairwise (fun a b => a < b) (List.range (lines.length + 1)) :=
      List.pairwise_lt_range _
    refine hrange.imp_of_mem (fun ha hb hab => ?_)
    have hb' : _ < lines.length + 1 := List.mem_range.mp hb
    exact lineSums_mono lines _ _ hab (by omega)
  · rw [hform]
    rw [List.getElem?_map, List.getElem?_range (by omega : 0 < lines.length + 1)]
    simp [lineSums]
  · rw [hform]
    rw [List.getElem?_map,
      List.getElem?_range (by omega : lines.length < lines.length + 1)]
    have h4 : lineSums lines lines.length =
        (lines.map (fun l => (l.length : Int) + 1)).sum := by
      unfold lineSums
      rw [List.take_length]
    simp [h4]

end BoundaryTable

/-- Claim C1 (code evaluation): for the two-line document
`["alpha", "beta"]`, a languagetool match at flat offset 6 (exactly the
second line's boundary) with length 4 is resolved by the code to
line 0 at intra-line offset 6 — the previous line's trailing position —
and not to line 1 at offset 0 as the specification requires. -/
theorem C1_boundary_offset_resolves_to_previous_line :
    languagetool_resolve_match ["alpha", "beta"] 6 4 =
      { word := "beta", line := 0, offset := 6, suggestions := [] } ∧
    languagetool_resolve_match ["alpha", "beta"] 6 4 ≠
      { word := "beta", line := 1, offset := 0, suggestions := [] } := by
  constructor
  · rfl
  · decide

/-- Claim C2 (code evaluation): for the document `["alpha", "beta"]` the
flat offset 0 (a valid offset, `0 ≤ 0 < 10`) is resolved by the code to
line `-1` at offset `-11` (the `bisect_left` result 0 makes the code
read `acc_line_lengths[-1]`, the last table entry 11) — not a valid
non-negative line index, and `boundary[line] + offset = 0` fails. -/
theorem C2_flat_offset_zero_resolves_to_negative_line :
    languagetool_resolve_match ["alpha", "beta"] 0 1 =
      { word := "a", line := -1, offset := -11, suggestions := [] } ∧
    (languagetool_resolve_match ["alpha", "beta"] 0 1).line < 0 := by
  constructor
  · rfl
  · decide

/-- Claim C3: the `&` reply grammar.  The replies
`& Tihs 2 2: This, Tins`, `& tset 2 11: test, tie` followed by a blank
line produce exactly the two mistakes
{word:"Tihs", line:0, offset:1, suggestions:["This","Tins"]} and
{word:"tset", line:0, offset:10, suggestions:["test","tie"]}: the text
before the first ':' splits on spaces into marker/word/count/offset,
the text after ': ' splits on ', ' into the suggestions, and the
1-based offset is decremented once. -/
theorem C3_aspell_ampersand_scenario :
    aspellGo ["& Tihs 2 2: This, Tins", "& tset 2 11: test, tie", ""] 0 =
      some ([Mistake.mk "Tihs" 0 1 ["This", "Tins"],
             Mistake.mk "tset" 0 10 ["test", "tie"]], 1) := by
  decide

/-- Unfolding lemma for `aspellGo` at an empty reply line. -/
theorem aspellGo_nil_data (r : String) (rest : List String) (n : Nat)
    (hct : r.data = []) : aspellGo (r :: rest) n = aspellGo rest (n + 1) := by
  rw [aspellGo, hct]

/-- Unfolding lemma for `aspellGo` at a non-empty reply line with first
character `c`. -/
theorem aspellGo_cons_data (r : String) (rest : List String) (n : Nat)
    (c : Char) (tl : List Char) (hct : r.data = c :: tl) :
    aspellGo (r :: rest) n =
      (if c = '*' ∨ c = '@' then aspellGo rest n
      else if c = '+' then aspellGo rest n
      else
        match (if c = '#' then
            (parse_aspell_line_no_suggestion r).map
              (fun t => [Mistake.mk t.1 n t.2.1 t.2.2]) else some []) with
        | none => none
        | some hs =>
          match (if c = '&' then
              (parse_aspell_line_with_suggestions r).map
                (fun t => [Mistake.mk t.1 n t.2.1 t.2.2]) else some []) with
          | none => none
          | some am =>
            match aspellGo rest n with
            | none => none
            | some (ms, n2) => some (hs ++ am ++ ms, n2)) := by
  rw [aspellGo, hct]

/-- Claim C4: the LineOriented adapter's counter and reply handling.
(1) Whenever processing succeeds, the final line counter equals the
starting counter plus the number of empty reply lines.  (2) A reply
beginning with `*`, `@` or `+` yields no mistake and leaves counter and
remaining processing unchanged.  (3) A reply beginning with `#` whose
second and third space-separated fields are `w` and a numeral `k`
prepends exactly the mistake {word: w, line: current counter,
offset: k - 1, suggestions: []} and leaves the counter unchanged. -/
theorem C4_aspell_counter_and_reply_grammar :
    (∀ (rs : List String) (n : Nat) (res : List Mistake × Nat),
        aspellGo rs n = some res →
        res.2 = n + List.countP (fun r => r == "") rs) ∧
    (∀ (r : String) (rest : List String) (n : Nat) (c : Char),
        r.data.head? = some c → (c = '*' ∨ c = '@' ∨ c = '+') →
        aspellGo (r :: rest) n = aspellGo rest n) ∧
    (∀ (r : String) (rest : List String) (n : Nat) (w ks : String) (k : Int),
        r.data.head? = some '#' →
        (pySplit r " ")[1]? = some w →
        (pySplit r " ")[2]? = some ks →
        pyInt? ks = some k →
        aspellGo (r :: rest) n =
          (aspellGo rest n).map
            (fun p => (Mistake.mk w n (k - 1) [] :: p.1, p.2))) := by
  refine ⟨?_, ?_, ?_⟩
  · intro rs
    induction rs with
    | nil =>
      intro n res h
      simp [aspellGo] at h
      simp [← h]
    | cons r rest ih =>
      intro n res h
      by_cases hr : r.data = []
      · have hre : (r == "") = true := by
          cases r
          simp_all
        rw [aspellGo_nil_data r rest n hr] at h
        have := ih (n + 1) res h
        simp [List.countP_cons, hre]
        omega
      · obtain ⟨c, tl, hct⟩ : ∃ c tl, r.data = c :: tl := by
          cases hd : r.data with
          | nil => exact absurd hd hr
          | cons c tl => exact ⟨c, tl, rfl⟩
        have hrne : (r == "") = false := by
          apply beq_eq_false_iff_ne.mpr
          intro he
          have h0 : ("" : String).data = [] := rfl
          rw [he, h0] at hct
          exact List.noConfusion hct
        rw [aspellGo_cons_data r rest n c tl hct] at h
        by_cases h1 : c = '*' ∨ c = '@'
        · rw [if_pos h1] at h
          have := ih n res h
          simp [List.countP_cons, hrne]
          omega
        · rw [if_neg h1] at h
          by_cases h2 : c = '+'
          · rw [if_pos h2] at h
            have := ih n res h
            simp [List.countP_cons, hrne]
            omega
          · rw [if_neg h2] at h
            revert h
            cases hhs : (if c = '#' then
                (parse_aspell_line_no_suggestion r).map
                  (fun t => [Mistake.mk t.1 n t.2.1 t.2.2]) else some []) with
            | none => intro h; exact absurd h (by simp)
            | some hs =>
              cases ham : (if c = '&' then
                  (parse_aspell_line_with_suggestions r).map
                    (fun t => [Mistake.mk t.1 n t.2.1 t.2.2]) else some []) with
              | none => intro h; exact absurd h (by simp)
              | some am =>
                cases htail : aspellGo rest n with
                | none => intro h; exact absurd h (by simp)
                | some p =>
                  intro h
                  have hres : res = (hs ++ am ++ p.1, p.2) := by
                    cases p
                    simp_all
                  have := ih n p htail
                  rw [hres]
                  simp [List.countP_cons, hrne]
                  omega
  · intro r rest n c hc hmem
    obtain ⟨tl, hct⟩ : ∃ tl, r.data = c :: tl := by
      cases hd : r.data with
      | nil => simp [hd] at hc
      | cons c2 tl =>
        rw [hd] at hc
        simp at hc
        exact ⟨tl, by rw [hc]⟩
    rw [aspellGo_cons_data r rest n c tl hct]
    rcases hmem with h | h | h <;> subst h <;> simp
  · intro r rest n w ks k hc hw hks hk
    obtain ⟨tl, hct⟩ : ∃ tl, r.data = '#' :: tl := by
      cases hd : r.data with
      | nil => simp [hd] at hc
      | cons c2 tl =>
        rw [hd] at hc
        simp at hc
        exact ⟨tl, by rw [hc]⟩
    have hparse : parse_aspell_line_no_suggestion r = some (w, k - 1, []) := by
      simp [parse_aspell_line_no_suggestion, hw, hks, hk]
    rw [aspellGo_cons_data r rest n '#' tl hct]
    rw [if_neg (by decide), if_neg (by decide)]
    rw [if_pos rfl, if_neg (by decide), hparse]
    cases htail : aspellGo rest n with
    | none => simp
    | some p =>
      cases p
      simp

/-- Witness for C4: all three components applied at concrete replies;
processing `["", "*ok"]` from counter 5 ends at counter 6, a `*` reply
is skipped, and `# wrd 3` yields {word:"wrd", line:7, offset:2}. -/
theorem C4_witness :
    ((([] : List Mistake), (6 : Nat)).2 =
        5 + List.countP (fun r => r == "") ["", "*ok"]) ∧
    aspellGo ["*ok"] 2 = aspellGo [] 2 ∧
    aspellGo ["# wrd 3"] 7 =
      (aspellGo [] 7).map (fun p => (Mistake.mk "wrd" 7 2 [] :: p.1, p.2)) :=
  ⟨C4_aspell_counter_and_reply_grammar.1 ["", "*ok"] 5 ([], 6) (by decide),
   C4_aspell_counter_and_reply_grammar.2.1 "*ok" [] 2 '*' (by decide) (Or.inl rfl),
   C4_aspell_counter_and_reply_grammar.2.2 "# wrd 3" [] 7 "wrd" "3" 3
     (by decide) (by decide) (by decide) (by decide)⟩

theorem stripEsc_reset (s : List Char) :
    stripEscGo (reset0 ++ s) 0 = stripEscGo s 0 := rfl

theorem stripEsc_red (s : List Char) :
    stripEscGo (red1 ++ s) 0 = stripEscGo s 0 := rfl

theorem stripEscGo_cons_ne (c : Char) (s : List Char) (h : ¬ c = '\x1b') :
    stripEscGo (c :: s) 0 = c :: stripEscGo s 0 := by
  rw [stripEscGo]
  simp [h]

theorem stripEscGo_clean (xs : List Char) (h : ∀ c ∈ xs, ¬ c = '\x1b') :
    ∀ t : List Char, stripEscGo (xs ++ t) 0 = xs ++ stripEscGo t 0 := by
  induction xs with
  | nil => intro t; simp
  | cons c cs ih =>
    intro t
    have hc : ¬ c = '\x1b' := h c (by simp)
    rw [List.cons_append, stripEscGo_cons_ne c (cs ++ t) hc,
      ih (fun d hd => h d (by simp [hd])) t]
    rfl

theorem augGo_cons_some (o2m : Int → Option Mistake) (ch : Char)
    (rest : List Char) (off : Nat) (endoff : Int) (out : List Char)
    (m : Mistake) (hm : o2m (off : Int) = some m) :
    augGo o2m (ch :: rest) off endoff out =
      augGo o2m rest (off + 1) ((off : Int) + m.word.length)
        ((if (off : Int) = endoff then out ++ reset0 else out) ++ red1 ++ [ch]) := by
  rw [augGo, hm]

theorem augGo_cons_none (o2m : Int → Option Mistake) (ch : Char)
    (rest : List Char) (off : Nat) (endoff : Int) (out : List Char)
    (hm : o2m (off : Int) = none) :
    augGo o2m (ch :: rest) off endoff out =
      augGo o2m rest (off + 1) (if (off : Int) = endoff then -1 else endoff)
        ((if (off : Int) = endoff then out ++ reset0 else out) ++ [ch]) := by
  rw [augGo, hm]

theorem augGo_out (o2m : Int → Option Mistake) (cs : List Char) :
    ∀ (off : Nat) (endoff : Int) (out : List Char),
      augGo o2m cs off endoff out = out ++ augGo o2m cs off endoff [] := by
  induction cs with
  | nil => intro off endoff out; simp [augGo]
  | cons ch rest ih =>
    intro off endoff out
    cases hm : o2m (off : Int) with
    | some m =>
      rw [augGo_cons_some o2m ch rest off endoff out m hm,
        augGo_cons_some o2m ch rest off endoff [] m hm,
        ih (off + 1) ((off : Int) + m.word.length)
          ((if (off : Int) = endoff then out ++ reset0 else out) ++ red1 ++ [ch]),
        ih (off + 1) ((off : Int) + m.word.length)
          ((if (off : Int) = endoff then [] ++ reset0 else []) ++ red1 ++ [ch])]
      by_cases hb : (off : Int) = endoff
      · simp [hb]
      · simp [hb]
    | none =>
      rw [augGo_cons_none o2m ch rest off endoff out hm,
        augGo_cons_none o2m ch rest off endoff [] hm,
        ih (off + 1) (if (off : Int) = endoff then -1 else endoff)
          ((if (off : Int) = endoff then out ++ reset0 else out) ++ [ch]),
        ih (off + 1) (if (off : Int) = endoff then -1 else endoff)
          ((if (off : Int) = endoff then [] ++ reset0 else []) ++ [ch])]
      by_cases hb : (off : Int) = endoff
      · simp [hb]
      · simp [hb]

theorem augGo_strip (o2m : Int → Option Mistake) (cs : List Char)
    (hesc : ∀ c ∈ cs, ¬ c = '\x1b') :
    ∀ (off : Nat) (endoff : Int) (t : List Char),
      stripEscGo (augGo o2m cs off endoff [] ++ t) 0 = cs ++ stripEscGo t 0 := by
  induction cs with
  | nil => intro off endoff t; simp [augGo]
  | cons ch rest ih =>
    intro off endoff t
    have hch : ¬ ch = '\x1b' := hesc ch (by simp)
    have ihr := ih (fun d hd => hesc d (by simp [hd]))
    cases hm : o2m (off : Int) with
    | some m =>
      rw [augGo_cons_some o2m ch rest off endoff [] m hm,
        augGo_out o2m rest (off + 1) ((off : Int) + m.word.length)
          ((if (off : Int) = endoff then [] ++ reset0 else []) ++ red1 ++ [ch])]
      by_cases hb : (off : Int) = endoff
      · simp only [if_pos hb, List.nil_append, List.append_assoc, List.singleton_append, List.cons_append]
        rw [stripEsc_reset, stripEsc_red, stripEscGo_cons_ne ch _ hch,
          ihr (off + 1) ((off : Int) + m.word.length) t]
      · simp only [if_neg hb, List.nil_append, List.append_assoc, List.singleton_append, List.cons_append]
        rw [stripEsc_red, stripEscGo_cons_ne ch _ hch,
          ihr (off + 1) ((off : Int) + m.word.length) t]
    | none =>
      rw [augGo_cons_none o2m ch rest off endoff [] hm,
        augGo_out o2m rest (off + 1) (if (off : Int) = endoff then -1 else endoff)
          ((if (off : Int) = endoff then [] ++ reset0 else []) ++ [ch])]
      by_cases hb : (off : Int) = endoff
      · simp only [if_pos hb, List.nil_append, List.append_assoc, List.singleton_append, List.cons_append]
        rw [stripEsc_reset, stripEscGo_cons_ne ch _ hch,
          ihr (off + 1) (-1) t]
      · simp only [if_neg hb, List.nil_append, List.append_assoc, List.singleton_append, List.cons_append]
        rw [stripEscGo_cons_ne ch _ hch, ihr (off + 1) endoff t]

theorem renderAugLine_strip (l : String) (ms : List Mistake) (t : List Char)
    (h : ∀ c ∈ l.data, ¬ c = '\x1b') :
    stripEscGo ((renderAugLine l ms).data ++ t) 0 =
      (l.data ++ ['\n']) ++ stripEscGo t 0 := by
  have hall : ∀ c ∈ l.data ++ ['\n'], ¬ c = '\x1b' := by
    intro c hc
    rcases List.mem_append.mp hc with h1 | h1
    · exact h c h1
    · simp at h1
      subst h1
      decide
  exact augGo_strip (offset2mistake ms) (l.data ++ ['\n']) hall 0 (-1) t

theorem augLines_strip (mistakes : List Mistake) (ls : List String) :
    ∀ n : Nat, (∀ l ∈ ls, ∀ c ∈ l.data, ¬ c = '\x1b') →
      stripEscGo (augLinesGo mistakes ls n).data 0 = (docText ls).data := by
  induction ls with
  | nil =>
    intro n _
    rfl
  | cons l rest ih =>
    intro n h
    have hl : ∀ c ∈ l.data, ¬ c = '\x1b' := h l (by simp)
    have hrest : ∀ l2 ∈ rest, ∀ c ∈ l2.data, ¬ c = '\x1b' :=
      fun l2 h2 => h l2 (by simp [h2])
    rw [augLinesGo, String.data_append]
    by_cases hm : (lineMistakes mistakes n).isEmpty
    · rw [if_pos hm, String.data_append]
      have hnl : "\n".data = ['\n'] := rfl
      rw [hnl, stripEscGo_clean (l.data ++ ['\n'])
        (by
          intro c hc
          rcases List.mem_append.mp hc with h1 | h1
          · exact hl c h1
          · simp at h1
            subst h1
            decide),
        ih (n + 1) hrest]
      show l.data ++ ['\n'] ++ (docText rest).data = (docText (l :: rest)).data
      rw [docText, String.data_append, String.data_append, hnl]
    · rw [if_neg hm, renderAugLine_strip l (lineMistakes mistakes n)
        (augLinesGo mistakes rest (n + 1)).data hl, ih (n + 1) hrest]
      show l.data ++ ['\n'] ++ (docText rest).data = (docText (l :: rest)).data
      have hnl : "\n".data = ['\n'] := rfl
      rw [docText, String.data_append, String.data_append, hnl]

theorem aug_round_trip (lines : List String) (mistakes : List Mistake)
    (h : ∀ l ∈ lines, ∀ c ∈ l.data, ¬ c = '\x1b') :
    strip_color_escapes (output_augmented_input lines mistakes) = docText lines := by
  have hd := augLines_strip mistakes lines 0 h
  show String.mk (stripEscGo (augLinesGo mistakes lines 0).data 0) = docText lines
  rw [hd]

/-- Counterexample to claim C5 as stated: for the one-line document
`["\x1b[m"]` (whose single line is itself a complete ANSI escape
pattern), rendering with zero mistakes and stripping yields `"\n"`,
not the document text. -/
theorem C5_counterexample_escape_document :
    strip_color_escapes (output_augmented_input ["\x1b[m"] []) ≠
      docText ["\x1b[m"] := by
  decide

/-- Claim C5 (amended): for every document none of whose lines contains
the escape character, rendering it in Augmented mode with an empty
mistake sequence and stripping all ANSI escape sequences reproduces the
input document byte-for-byte.  (The escape-free hypothesis is forced:
document content that looks like, or combines across lines into, an
escape pattern is destroyed by the strip, see the counterexample.) -/
theorem C5_round_trip_escape_free (lines : List String)
    (h : ∀ l ∈ lines, ∀ c ∈ l.data, ¬ c = '\x1b') :
    strip_color_escapes (output_augmented_input lines []) = docText lines :=
  aug_round_trip lines [] h

/-- Witness for C5 at the concrete escape-free document `["ab"]`. -/
theorem C5_witness :
    strip_color_escapes (output_augmented_input ["ab"] []) = docText ["ab"] :=
  C5_round_trip_escape_free ["ab"] (by decide)

/-- Counterexample to claim C10 as stated: neither line of
`["\x1b[", "m"]` contains a full escape pattern (stripping each line
alone is the identity), yet the pattern matches across the newline in
the rendered output and stripping destroys it. -/
theorem C10_counterexample_cross_line_pattern :
    strip_color_escapes "\x1b[" = "\x1b[" ∧
    strip_color_escapes "m" = "m" ∧
    strip_color_escapes (output_augmented_input ["\x1b[", "m"] []) ≠
      docText ["\x1b[", "m"] := by
  refine ⟨by decide, by decide, by decide⟩

/-- Claim C10 (amended): for every document none of whose lines
contains the escape character, and every mistake sequence whose line
fields index valid document lines, stripping all ANSI escape sequences
from the Augmented output reproduces the document byte-for-byte — the
renderer only inserts highlight markers and never drops, duplicates or
alters document characters, even for overlapping or duplicate-offset
mistakes.  (The no-escape-character hypothesis replaces the weaker
per-line no-full-pattern condition, which the counterexample shows
insufficient; the proof does not even need the line-validity
hypothesis.) -/
theorem C10_strip_round_trip_escape_free (lines : List String)
    (mistakes : List Mistake)
    (hesc : ∀ l ∈ lines, ∀ c ∈ l.data, ¬ c = '\x1b')
    (_hline : ∀ m ∈ mistakes, 0 ≤ m.line ∧ m.line < lines.length) :
    strip_color_escapes (output_augmented_input lines mistakes) = docText lines :=
  aug_round_trip lines mistakes hesc

/-- Witness for C10 at a concrete document with one highlighted
mistake. -/
theorem C10_witness :
    strip_color_escapes (output_augmented_input ["abc"] [Mistake.mk "b" 0 1 []]) =
      docText ["abc"] :=
  C10_strip_round_trip_escape_free ["abc"] [Mistake.mk "b" 0 1 []]
    (by decide) (by decide)

/-- Claim C6: in the per-offset index of the Mistake Aggregator, a
mistake appended later with the same offset silently replaces the
earlier one (first conjunct, for every mistake list), and this override
determines the highlighted span: with `"abcd"` then `"ab"` both at
offset 0 of line 0, the rendered line closes the highlight after two
characters, the later mistake's word length. -/
theorem C6_same_offset_later_wins :
    (∀ (ms : List Mistake) (m : Mistake) (o : Int),
        offset2mistake (ms ++ [m]) o =
          if o = m.offset then some m else offset2mistake ms o) ∧
    renderAugLine "abcdef" [Mistake.mk "abcd" 0 0 [], Mistake.mk "ab" 0 0 []] =
      "\x1b[1;31mab\x1b[0mcdef\n" := by
  constructor
  · intro ms m o
    unfold offset2mistake
    rw [List.foldl_append]
    rfl
  · decide

theorem pySplitGo_ne_nil (sep : List Char) :
    ∀ (s : List Char) (k : Nat), pySplitGo sep s k ≠ [] := by
  intro s
  induction s with
  | nil => intro k; simp [pySplitGo]
  | cons c rest ih =>
    intro k
    cases k with
    | zero =>
      by_cases hcond : (leadsWith sep (c :: rest) && !sep.isEmpty) = true
      · rw [pySplitGo, if_pos hcond]
        simp
      · rw [pySplitGo, if_neg hcond]
        cases h : pySplitGo sep rest 0 with
        | nil => simp
        | cons t ts => simp
    | succ k2 =>
      rw [pySplitGo]
      exact ih k2

theorem linesOf_newline (b : List Char) :
    linesOfChars ('\n' :: b) = [] :: linesOfChars b := rfl

theorem linesOf_comma_newline (b : List Char) :
    linesOfChars (',' :: '\n' :: b) = [','] :: linesOfChars b := rfl

theorem leadsWith_self : ∀ (p x : List Char), leadsWith p (p ++ x) = true := by
  intro p
  induction p with
  | nil => intro x; rfl
  | cons c ps ih => intro x; simp [leadsWith, ih]

theorem linesOf_clean_front (a : List Char) (ha : ∀ c ∈ a, ¬ c = '\n') :
    ∀ b, linesOfChars (a ++ b) =
      (a ++ (linesOfChars b).headD []) :: (linesOfChars b).tail := by
  induction a with
  | nil =>
    intro b
    cases h : linesOfChars b with
    | nil => exact absurd h (pySplitGo_ne_nil _ _ _)
    | cons t ts => simp [h]
  | cons c a2 ih =>
    intro b
    have hc : ¬ c = '\n' := ha c (by simp)
    have hbeq : ('\n' == c) = false :=
      beq_eq_false_iff_ne.mpr (fun h => hc h.symm)
    have hlw : leadsWith ['\n'] (c :: (a2 ++ b)) = false := by
      simp [leadsWith, hbeq]
    show pySplitGo ['\n'] (c :: (a2 ++ b)) 0 = _
    rw [pySplitGo, if_neg (by simp [hlw])]
    have ihb := ih (fun d hd => ha d (by simp [hd])) b
    rw [show pySplitGo ['\n'] (a2 ++ b) 0 = linesOfChars (a2 ++ b) from rfl, ihb]
    rfl

example (a b c : String) : (a ++ b) ++ c = a ++ (b ++ c) := String.append_assoc a b c
example (a : String) : a ++ "" = a := String.append_empty a
example (a : String) : "" ++ a = a := String.empty_append a

theorem suggGo_out : ∀ (suggs : List String) (cur : Nat) (first : Bool) (out : String),
    suggGo suggs cur first out = out ++ suggGo suggs cur first "" := by
  intro suggs
  induction suggs with
  | nil =>
    intro cur first out
    simp [suggGo, String.append_empty]
  | cons s rest ih =>
    intro cur first out
    rw [suggGo, suggGo]
    by_cases h1 : cur + 2 + s.length > 80 ∧ first = false
    · rw [if_pos h1, if_pos h1,
        ih (suggLabel.length + s.length) false
          (out ++ ",\n" ++ pyRepeatChar ' ' (suggLabel.length : Int) ++ s),
        ih (suggLabel.length + s.length) false
          ("" ++ ",\n" ++ pyRepeatChar ' ' (suggLabel.length : Int) ++ s)]
      simp [String.empty_append, String.append_assoc]
    · rw [if_neg h1, if_neg h1]
      by_cases h2 : first = false
      · rw [if_pos h2, if_pos h2,
          ih (cur + 2 + s.length) false (out ++ ", " ++ s),
          ih (cur + 2 + s.length) false ("" ++ ", " ++ s)]
        simp [String.empty_append, String.append_assoc]
      · rw [if_neg h2, if_neg h2,
          ih (cur + s.length) false (out ++ s),
          ih (cur + s.length) false ("" ++ s)]
        simp [String.empty_append, String.append_assoc]

theorem suggGo_tail_eq : ∀ (suggs : List String) (cur : Nat) (out : String),
    suggGo suggs cur false out = out ++ suggTail suggs cur := by
  intro suggs
  induction suggs with
  | nil =>
    intro cur out
    simp [suggGo, suggTail, String.append_empty]
  | cons s rest ih =>
    intro cur out
    rw [suggGo, suggTail]
    by_cases h : cur + 2 + s.length > 80
    · rw [if_pos (by exact ⟨h, rfl⟩ : cur + 2 + s.length > 80 ∧ (false : Bool) = false),
        if_pos h,
        ih (suggLabel.length + s.length)
          (out ++ ",\n" ++ pyRepeatChar ' ' (suggLabel.length : Int) ++ s)]
      simp [String.append_assoc]
    · rw [if_neg (by simp [h]), if_pos rfl,
        ih (cur + 2 + s.length) (out ++ ", " ++ s)]
      simp [String.append_assoc, h]

theorem sugg_body_cons (s : String) (rest : List String) :
    sugg_body (s :: rest) =
      suggLabel ++ s ++ suggTail rest (suggLabel.length + s.length) := by
  unfold sugg_body
  rw [suggGo, if_neg (by simp), if_neg (by simp),
    suggGo_tail_eq rest (suggLabel.length + s.length) (suggLabel ++ s)]

theorem le_maxSuggLen : ∀ (suggs : List String), ∀ s ∈ suggs,
    s.length ≤ maxSuggLen suggs := by
  intro suggs
  induction suggs with
  | nil => simp
  | cons a rest ih =>
    intro s hs
    have hstep : maxSuggLen (a :: rest) = max a.length (maxSuggLen rest) := rfl
    rcases List.mem_cons.mp hs with rfl | h
    · rw [hstep]
      exact Nat.le_max_left _ _
    · rw [hstep]
      exact le_trans (ih s h) (Nat.le_max_right _ _)

theorem suggTail_bound (M : Nat) : ∀ (suggs : List String) (cur : Nat),
    (∀ s ∈ suggs, (∀ c ∈ s.data, ¬ c = '\n') ∧ s.length ≤ M) →
    (cur ≤ 80 ∨ cur ≤ 15 + M) →
    cur + ((linesOfChars (suggTail suggs cur).data).headD []).length ≤
        max 81 (16 + M) ∧
    ∀ line ∈ (linesOfChars (suggTail suggs cur).data).tail,
      line.length ≤ max 81 (16 + M) ∧
        leadsWith (List.replicate 15 ' ') line = true := by
  intro suggs
  induction suggs with
  | nil =>
    intro cur _ hcur
    have h0 : linesOfChars (suggTail [] cur).data = [[]] := rfl
    rw [h0]
    constructor
    · show cur + ([] : List Char).length ≤ max 81 (16 + M)
      have h81 : 81 ≤ max 81 (16 + M) := Nat.le_max_left _ _
      have h16 : 16 + M ≤ max 81 (16 + M) := Nat.le_max_right _ _
      simp only [List.length_nil]
      omega
    · intro line hline
      simp at hline
  | cons s rest ih =>
    intro cur hs hcur
    have hsd := hs s (by simp)
    have hrest : ∀ s2 ∈ rest, (∀ c ∈ s2.data, ¬ c = '\n') ∧ s2.length ≤ M :=
      fun s2 h2 => hs s2 (by simp [h2])
    have h81 : 81 ≤ max 81 (16 + M) := Nat.le_max_left _ _
    have h16 : 16 + M ≤ max 81 (16 + M) := Nat.le_max_right _ _
    have hlab : suggLabel.length = 15 := rfl
    have hsl : s.data.length = s.length := rfl
    rw [suggTail]
    by_cases hw : cur + 2 + s.length > 80
    · rw [if_pos hw]
      have hdata : (",\n" ++ pyRepeatChar ' ' (suggLabel.length : Int) ++ s ++
          suggTail rest (suggLabel.length + s.length)).data =
          ',' :: '\n' :: ((List.replicate 15 ' ' ++ s.data) ++
            (suggTail rest (suggLabel.length + s.length)).data) := rfl
      rw [hdata, linesOf_comma_newline]
      have hclean : ∀ c ∈ List.replicate 15 ' ' ++ s.data, ¬ c = '\n' := by
        intro c hc
        rcases List.mem_append.mp hc with h1 | h1
        · have := List.eq_of_mem_replicate h1
          subst this
          decide
        · exact hsd.1 c h1
      rw [linesOf_clean_front _ hclean]
      obtain ⟨hihHead, hihTail⟩ := ih (suggLabel.length + s.length) hrest
        (Or.inr (by omega))
      simp only [List.headD_cons, List.tail_cons]
      constructor
      · show cur + [','].length ≤ max 81 (16 + M)
        simp only [List.length_singleton]
        rcases hcur with h | h
        · omega
        · omega
      · intro line hline
        rcases List.mem_cons.mp hline with rfl | h2
        · constructor
          · rw [List.length_append, List.length_append, List.length_replicate, hsl]
            omega
          · rw [List.append_assoc]
            exact leadsWith_self _ _
        · exact hihTail line h2
    · rw [if_neg hw]
      have hdata : (", " ++ s ++ suggTail rest (cur + 2 + s.length)).data =
          (([',', ' '] ++ s.data) ++ (suggTail rest (cur + 2 + s.length)).data) := rfl
      rw [hdata]
      have hclean2 : ∀ c ∈ ([',', ' '] : List Char) ++ s.data, ¬ c = '\n' := by
        intro c hc
        rcases List.mem_append.mp hc with h1 | h1
        · simp at h1
          rcases h1 with rfl | rfl <;> decide
        · exact hsd.1 c h1
      rw [linesOf_clean_front _ hclean2]
      obtain ⟨hihHead, hihTail⟩ := ih (cur + 2 + s.length) hrest (Or.inl (by omega))
      simp only [List.headD_cons, List.tail_cons]
      constructor
      · rw [List.length_append, List.length_append, hsl]
        simp only [List.length_cons, List.length_nil]
        omega
      · exact fun line h2 => hihTail line h2

/-- Claim C8 (amended): in List mode, for every non-empty suggestion
list (whose tokens, coming from single reply lines, contain no
newline), every rendered suggestion line is at most
`max 81 (16 + longest-suggestion)` columns wide — i.e. at most 80
columns plus the comma a wrap appends to the previous line, except that
a single suggestion wider than the 65 columns remaining after the label
indent is placed alone on its line — and every continuation line is
indented by the 15-column width of the `'  Suggestions: '` label.
Suggestions are joined by `', '` (see `suggGo`/`suggTail`). -/
theorem C8_suggestion_wrapping (suggs : List String) (hne : suggs ≠ [])
    (hnl : ∀ s ∈ suggs, ∀ c ∈ s.data, ¬ c = '\n') :
    (∀ line ∈ pySplit (sugg_body suggs) "\n",
      line.length ≤ max 81 (16 + maxSuggLen suggs)) ∧
    (∀ line ∈ (pySplit (sugg_body suggs) "\n").tail,
      leadsWith (List.replicate 15 ' ') line.data = true) := by
  obtain ⟨s, rest, rfl⟩ : ∃ s rest, suggs = s :: rest := by
    cases suggs with
    | nil => exact absurd rfl hne
    | cons s rest => exact ⟨s, rest, rfl⟩
  have hM : ∀ s2 ∈ s :: rest,
      (∀ c ∈ s2.data, ¬ c = '\n') ∧ s2.length ≤ maxSuggLen (s :: rest) :=
    fun s2 h2 => ⟨hnl s2 h2, le_maxSuggLen _ s2 h2⟩
  rw [sugg_body_cons]
  have hps : pySplit (suggLabel ++ s ++ suggTail rest (suggLabel.length + s.length)) "\n" =
      (linesOfChars ((suggLabel.data ++ s.data) ++
        (suggTail rest (suggLabel.length + s.length)).data)).map String.mk := rfl
  rw [hps]
  have hclean : ∀ c ∈ suggLabel.data ++ s.data, ¬ c = '\n' := by
    intro c hc
    rcases List.mem_append.mp hc with h1 | h1
    · have hall : ∀ c ∈ suggLabel.data, ¬ c = '\n' := by decide
      exact hall c h1
    · exact hnl s (by simp) c h1
  rw [linesOf_clean_front _ hclean]
  have hlab : suggLabel.length = 15 := rfl
  obtain ⟨hhead, htail⟩ := suggTail_bound (maxSuggLen (s :: rest)) rest
    (suggLabel.length + s.length)
    (fun s2 h2 => hM s2 (by simp [h2]))
    (Or.inr (by
      have hsM := (hM s (by simp)).2
      omega))
  constructor
  · intro line hline
    obtain ⟨cs, hcs, rfl⟩ := List.mem_map.mp hline
    have hlen : (String.mk cs).length = cs.length := rfl
    rw [hlen]
    rcases List.mem_cons.mp hcs with rfl | h2
    · rw [List.length_append, List.length_append]
      have hld : suggLabel.data.length = 15 := rfl
      have hsd : s.data.length = s.length := rfl
      omega
    · exact (htail cs h2).1
  · intro line hline
    simp only [List.map_cons, List.tail_cons] at hline
    obtain ⟨cs, hcs, rfl⟩ := List.mem_map.mp hline
    have hdd : (String.mk cs).data = cs := rfl
    rw [hdd]
    exact (htail cs hcs).2

/-- Counterexample to claim C8 as stated: with suggestions of widths
65 and 1 (none wider than the 80-column budget), the first rendered
line is 81 columns wide — the wrap appends a comma to a line that was
already exactly 80 columns. -/
theorem C8_counterexample_81_columns :
    (pySplit (sugg_body [String.mk (List.replicate 65 'a'), "b"]) "\n").map
        String.length = [81, 16] ∧
    (String.mk (List.replicate 65 'a')).length = 65 ∧
    ("b" : String).length = 1 := by
  refine ⟨by decide, by decide, by decide⟩

/-- Witness for C8 at the concrete suggestion list
`["This", "Tins"]` and its first rendered line. -/
theorem C8_witness :
    ("  Suggestions: This, Tins" : String).length ≤
      max 81 (16 + maxSuggLen ["This", "Tins"]) :=
  (C8_suggestion_wrapping ["This", "Tins"] (by decide) (by decide)).1
    "  Suggestions: This, Tins" (by decide)

/-- Claim C7: in List mode, for every mistake with in-bounds line and
offset, the printed output is first line, underline line, suggestion
section in that order, and the escape-stripped underline line is
exactly a run of spaces as long as the visible (escape-stripped) width
of the `filename:line:` label plus the mistake's offset, followed by a
run of `'~'` exactly as long as the flagged word — so the underline
starts directly beneath the word however many escape sequences the
label contains. -/
theorem C7_underline_alignment (lines : List String) (m : Mistake)
    (filename : String) (l : String)
    (hl : pyListGet lines m.line = some l)
    (hoff : 0 ≤ m.offset)
    (_hspan : m.offset + (m.word.length : Int) ≤ (l.length : Int)) :
    pretty_print_mistake lines m filename =
      some (pretty_first_line l m filename ++ "\n" ++
        pretty_second_line m filename ++ "\n" ++ sugg_section m) ∧
    (strip_color_escapes (pretty_second_line m filename)).data =
      List.replicate
        ((strip_color_escapes (mkPfx filename m.line)).length + m.offset.toNat)
        ' ' ++ List.replicate m.word.length '~' := by
  constructor
  · unfold pretty_print_mistake
    rw [hl]
    rfl
  · obtain ⟨k, hk⟩ : ∃ k : Nat, m.offset = (k : Int) :=
      ⟨m.offset.toNat, (Int.toNat_of_nonneg hoff).symm⟩
    have hdata : (pretty_second_line m filename).data =
        List.replicate
            (((strip_color_escapes (mkPfx filename m.line)).length : Int) +
              m.offset).toNat ' ' ++
          red1 ++ List.replicate ((m.word.length : Int)).toNat '~' ++ reset0 := rfl
    show stripEscGo (pretty_second_line m filename).data 0 = _
    rw [hdata, List.append_assoc, List.append_assoc]
    rw [stripEscGo_clean _ (fun c hc => by
      have := List.eq_of_mem_replicate hc
      subst this
      decide) _]
    rw [stripEsc_red]
    rw [stripEscGo_clean _ (fun c hc => by
      have := List.eq_of_mem_replicate hc
      subst this
      decide) _]
    have hres : stripEscGo reset0 0 = [] := rfl
    rw [hres, List.append_nil]
    have hknat : (((strip_color_escapes (mkPfx filename m.line)).length : Int) +
        m.offset).toNat =
        (strip_color_escapes (mkPfx filename m.line)).length + m.offset.toNat := by
      rw [hk]
      omega
    have hwnat : ((m.word.length : Int)).toNat = m.word.length := by omega
    rw [hknat, hwnat]

/-- Witness for C7 at the spec's scenario line `"Tihs is a tset."`
with the mistake `tset` at offset 10. -/
theorem C7_witness :
    pretty_print_mistake ["Tihs is a tset."] (Mistake.mk "tset" 0 10 []) "f" =
      some (pretty_first_line "Tihs is a tset." (Mistake.mk "tset" 0 10 []) "f" ++
        "\n" ++ pretty_second_line (Mistake.mk "tset" 0 10 []) "f" ++ "\n" ++
        sugg_section (Mistake.mk "tset" 0 10 [])) ∧
    (strip_color_escapes
        (pretty_second_line (Mistake.mk "tset" 0 10 []) "f")).data =
      List.replicate
        ((strip_color_escapes (mkPfx "f" (Mistake.mk "tset" 0 10 []).line)).length +
          (Mistake.mk "tset" 0 10 []).offset.toNat) ' ' ++
      List.replicate (Mistake.mk "tset" 0 10 []).word.length '~' :=
  C7_underline_alignment ["Tihs is a tset."] (Mistake.mk "tset" 0 10 []) "f"
    "Tihs is a tset." (by decide) (by decide) (by decide)
